import Mathlib

/-!
Shallow embedding of `src/main.py` (TCReviewer): a terms-and-conditions
review tool.  Strings are modelled as `List Char`; Python's ASCII-relevant
behaviour of `str.strip`, `str.lower` and the specific regexes used by the
program is embedded directly.  SHA-256 is implemented in full, over `Nat`
with explicit reduction mod 2^32.
-/

set_option maxRecDepth 100000

namespace TandC

/-! ## Characters and Python string helpers -/

def nlC : Char := Char.ofNat 10

def quoteC : Char := Char.ofNat 34

def bslashC : Char := Char.ofNat 92

def aposC : Char := Char.ofNat 39

/-- Python `\s` / `str.strip` whitespace, ASCII fragment:
space, tab, newline, carriage return, vertical tab, form feed. -/
def isPySpace (c : Char) : Bool :=
  decide (c.toNat = 32 ∨ c.toNat = 9 ∨ c.toNat = 10 ∨ c.toNat = 13 ∨
          c.toNat = 11 ∨ c.toNat = 12)

/-- Python `str.strip()`: drop leading and trailing whitespace. -/
def pstrip (s : List Char) : List Char :=
  ((s.dropWhile isPySpace).reverse.dropWhile isPySpace).reverse

/-- Python `str.lower()`, ASCII fragment (maps `A`-`Z` to `a`-`z`);
`Char.toLower` implements exactly this mapping. -/
def plower (s : List Char) : List Char :=
  s.map Char.toLower

/-! ## SHA-256 over `Nat`, values kept below 2^32 -/

def MOD32 : Nat := 4294967296

def rotr32 (n x : Nat) : Nat :=
  (x >>> n) + ((x % 2 ^ n) * 2 ^ (32 - n))

def bigSigma0 (x : Nat) : Nat := rotr32 2 x ^^^ rotr32 13 x ^^^ rotr32 22 x

def bigSigma1 (x : Nat) : Nat := rotr32 6 x ^^^ rotr32 11 x ^^^ rotr32 25 x

def smallSigma0 (x : Nat) : Nat := rotr32 7 x ^^^ rotr32 18 x ^^^ (x >>> 3)

def smallSigma1 (x : Nat) : Nat := rotr32 17 x ^^^ rotr32 19 x ^^^ (x >>> 10)

def chF (x y z : Nat) : Nat := (x &&& y) ^^^ ((x ^^^ 4294967295) &&& z)

def majF (x y z : Nat) : Nat := (x &&& y) ^^^ (x &&& z) ^^^ (y &&& z)

def kConst : List Nat :=
  [1116352408, 1899447441, 3049323471, 3921009573, 961987163,
   1508970993, 2453635748, 2870763221, 3624381080, 310598401,
   607225278, 1426881987, 1925078388, 2162078206, 2614888103,
   3248222580, 3835390401, 4022224774, 264347078, 604807628,
   770255983, 1249150122, 1555081692, 1996064986, 2554220882,
   2821834349, 2952996808, 3210313671, 3336571891, 3584528711,
   113926993, 338241895, 666307205, 773529912, 1294757372,
   1396182291, 1695183700, 1986661051, 2177026350, 2456956037,
   2730485921, 2820302411, 3259730800, 3345764771, 3516065817,
   3600352804, 4094571909, 275423344, 430227734, 506948616,
   659060556, 883997877, 958139571, 1322822218, 1537002063,
   1747873779, 1955562222, 2024104815, 2227730452, 2361852424,
   2428436474, 2756734187, 3204031479, 3329325298]

def hInit : List Nat :=
  [1779033703, 3144134277, 1013904242, 2773480762,
   1359893119, 2600822924, 528734635, 1541459225]

/-- Extend 16 message-schedule words to 64. -/
def extendW (w : List Nat) : List Nat :=
  (List.range 48).foldl (fun acc _ =>
    let n := acc.length
    acc ++ [(smallSigma1 (acc.getD (n - 2) 0) + acc.getD (n - 7) 0 +
             smallSigma0 (acc.getD (n - 15) 0) + acc.getD (n - 16) 0) % MOD32]) w

/-- One SHA-256 compression round; the state is the 8-word working vector. -/
def sha256Round (st : List Nat) (kw : Nat × Nat) : List Nat :=
  match st with
  | [a, b, c, d, e, f, g, h] =>
    let t1 := (h + bigSigma1 e + chF e f g + kw.1 + kw.2) % MOD32
    let t2 := (bigSigma0 a + majF a b c) % MOD32
    [(t1 + t2) % MOD32, a, b, c, (d + t1) % MOD32, e, f, g]
  | other => other

def compressBlock (hs : List Nat) (block : List Nat) : List Nat :=
  let w := extendW block
  let out := (kConst.zip w).foldl sha256Round hs
  (hs.zip out).map (fun p => (p.1 + p.2) % MOD32)

def bytesToWords : List Nat → List Nat
  | a :: b :: c :: d :: rest => (((a * 256 + b) * 256 + c) * 256 + d) :: bytesToWords rest
  | _ => []

def chunk64Go : Nat → List Nat → List (List Nat)
  | _, [] => []
  | 0, _ => []
  | fuel + 1, x :: xs => (x :: xs).take 64 :: chunk64Go fuel (xs.drop 63)

def chunk64 (l : List Nat) : List (List Nat) :=
  chunk64Go l.length l

def toBE (n v : Nat) : List Nat :=
  match n with
  | 0 => []
  | m + 1 => toBE m (v / 256) ++ [v % 256]

def padMsg (m : List Nat) : List Nat :=
  let L := m.length
  let r := (L + 1) % 64
  let k := if r ≤ 56 then 56 - r else 120 - r
  m ++ [128] ++ List.replicate k 0 ++ toBE 8 (8 * L)

/-- SHA-256 digest of a byte sequence, as 8 32-bit words. -/
def sha256Words (m : List Nat) : List Nat :=
  ((chunk64 (padMsg m)).map bytesToWords).foldl compressBlock hInit

def hexOfNibble (n : Nat) : Char :=
  if n < 10 then Char.ofNat (48 + n) else Char.ofNat (87 + n)

def wordHex (w : Nat) : List Char :=
  (List.range 8).map (fun i => hexOfNibble ((w >>> (4 * (7 - i))) % 16))

def hexDigest (ws : List Nat) : List Char :=
  (ws.map wordHex).flatten

/-- UTF-8 encoding of one character. -/
def utf8Char (c : Char) : List Nat :=
  let n := c.toNat
  if n < 128 then [n]
  else if n < 2048 then [192 + n / 64, 128 + n % 64]
  else if n < 65536 then [224 + n / 4096, 128 + (n / 64) % 64, 128 + n % 64]
  else [240 + n / 262144, 128 + (n / 4096) % 64, 128 + (n / 64) % 64, 128 + n % 64]

def utf8Bytes (s : List Char) : List Nat :=
  (s.map utf8Char).flatten

/-- `TCReviewer.hash_section`: strip, lowercase, UTF-8 encode, SHA-256, hex. -/
def hash_section (text : List Char) : List Char :=
  hexDigest (sha256Words (utf8Bytes (plower (pstrip text))))

example : hash_section [] =
    "e3b0c44298fc1c149afbf4c8996fb92427ae41e4649b934ca495991b7852b855".toList := by
  decide

example : hexDigest (sha256Words (utf8Bytes "abc".toList)) =
    "ba7816bf8f01cfea414140de5dae2223b00361a396177a9cb410ff61f20015ad".toList := by
  decide

/-! ## Segmenter: `split_into_sections` and `chunk_by_size`

The four boundary regexes are `\n(?=[A-Z][A-Z\s&\x27-]{5,80}\n)`,
`\n(?=\d+\.\s)`, `\n(?=Article\s+\d+)`, `\n(?=Section\s+\d+)`.
`re.split` with a zero-width-lookahead pattern of this shape splits the text
at every newline whose following suffix satisfies the lookahead; the newline
itself is consumed. -/

def isUpperA (c : Char) : Bool := decide (65 ≤ c.toNat ∧ c.toNat ≤ 90)

def isDigitC (c : Char) : Bool := decide (48 ≤ c.toNat ∧ c.toNat ≤ 57)

/-- Character class `[A-Z\s&\x27-]` of the heading pattern
(codes 38, 39, 45 are ampersand, apostrophe, hyphen). -/
def classA (c : Char) : Bool :=
  isUpperA c || isPySpace c || c.toNat == 38 || c.toNat == 39 || c.toNat == 45

/-- Lookahead `[A-Z][A-Z\s&\x27-]{5,80}\n` (pattern (a)); the bounded
repetition backtracks, hence the existential over the repetition count. -/
def lookStandalone : List Char → Bool
  | [] => false
  | c :: cs =>
    isUpperA c && (List.range 76).any (fun j =>
      (cs.take (5 + j)).all classA && cs.get? (5 + j) == some nlC)

/-- Lookahead `\d+\.\s` (pattern (b)). -/
def lookNumbered (rest : List Char) : Bool :=
  let ds := rest.takeWhile isDigitC
  !ds.isEmpty &&
    (match rest.drop ds.length with
     | p :: s :: _ => p.toNat == 46 && isPySpace s
     | _ => false)

/-- Lookahead `<kw>\s+\d` (patterns (c) and (d), with `kw` either
`Article` or `Section`). -/
def lookKeyword (kw : List Char) (rest : List Char) : Bool :=
  kw.isPrefixOf rest &&
    (let t := rest.drop kw.length
     let ws := t.takeWhile isPySpace
     !ws.isEmpty &&
       (match t.drop ws.length with
        | d :: _ => isDigitC d
        | _ => false))

/-- `re.split (r"\n(?=...)")`: cut at every newline whose suffix satisfies
the lookahead `p`, consuming the newline. -/
def splitGo (p : List Char → Bool) : List Char → List Char → List (List Char)
  | [], acc => [acc.reverse]
  | c :: cs, acc =>
    if c == nlC && p cs then acc.reverse :: splitGo p cs []
    else splitGo p cs (c :: acc)

def reSplit (p : List Char → Bool) (text : List Char) : List (List Char) :=
  splitGo p text []

/-- `[s.strip() for s in pieces if s.strip()]` -/
def trimFilter (pieces : List (List Char)) : List (List Char) :=
  (pieces.map pstrip).filter (fun s => !s.isEmpty)

def patternLooks : List (List Char → Bool) :=
  [lookStandalone, lookNumbered, lookKeyword "Article".toList, lookKeyword "Section".toList]

/-- The `for pattern in patterns` loop of `split_into_sections`: the first
pattern whose raw split has more than 5 pieces wins (before trimming and
filtering); if none does, `sections` stays `[]`. -/
def tryPatternsGo (text : List Char) : List (List Char → Bool) → List (List Char)
  | [] => []
  | p :: ps =>
    if (reSplit p text).length > 5 then trimFilter (reSplit p text)
    else tryPatternsGo text ps

/-- Python `text.split(chr(10) ++ chr(10))`: split on each non-overlapping
occurrence of two consecutive newlines, left to right. -/
def splitNlNlGo : List Char → List Char → List (List Char)
  | [], acc => [acc.reverse]
  | [a], acc => [(a :: acc).reverse]
  | a :: b :: rest, acc =>
    if a == nlC && b == nlC then acc.reverse :: splitNlNlGo rest []
    else splitNlNlGo (b :: rest) (a :: acc)

/-- Python `text.split(chr(10))`. -/
def splitNlGo : List Char → List Char → List (List Char)
  | [], acc => [acc.reverse]
  | c :: cs, acc =>
    if c == nlC then acc.reverse :: splitNlGo cs []
    else splitNlGo cs (c :: acc)

def paraFallback (text : List Char) : List (List Char) :=
  ((splitNlNlGo text []).map pstrip).filter (fun s => !s.isEmpty && s.length > 100)

def lineFallback (text : List Char) : List (List Char) :=
  ((splitNlGo text []).map pstrip).filter (fun s => s.length > 200)

/-- `re.split (r"(?<=[.!?])\s+", text)`: cut at each maximal whitespace run
preceded by `.`, `!` or `?`, consuming the run.  The fuel argument is the
text length, enough for the char-by-char scan. -/
def splitSentGo : Nat → List Char → List Char → Option Char → List (List Char)
  | _, [], acc, _ => [acc.reverse]
  | 0, rest, acc, _ => [acc.reverse ++ rest]
  | fuel + 1, c :: cs, acc, prev =>
    if isPySpace c && (prev == some (Char.ofNat 46) || prev == some (Char.ofNat 33)
        || prev == some (Char.ofNat 63)) then
      acc.reverse :: splitSentGo fuel (cs.dropWhile isPySpace) [] none
    else splitSentGo fuel cs (c :: acc) (some c)

def splitSentences (text : List Char) : List (List Char) :=
  splitSentGo text.length text [] none

/-- State of the greedy packing loop of `chunk_by_size`:
closed chunks, current chunk (list of sentences), running length counter. -/
structure ChunkSt where
  chunks : List (List Char)
  current : List (List Char)
  curlen : Nat
deriving DecidableEq

/-- Loop body of `chunk_by_size`. -/
def chunkStep (maxC minC : Nat) (st : ChunkSt) (s : List Char) : ChunkSt :=
  if st.curlen + s.length > maxC ∧ minC ≤ st.curlen then
    ⟨st.chunks ++ [List.intercalate [' '] st.current], [s], s.length⟩
  else ⟨st.chunks, st.current ++ [s], st.curlen + s.length + 1⟩

/-- End-of-loop handling of `chunk_by_size` (trailing chunk, fallback to the
whole original text when no chunk was produced). -/
def chunkFinalize (text : List Char) (minC : Nat) (st : ChunkSt) : List (List Char) :=
  let chunks :=
    if st.current ≠ [] ∧ minC ≤ st.curlen then
      st.chunks ++ [List.intercalate [' '] st.current]
    else if st.current ≠ [] ∧ st.chunks ≠ [] then
      st.chunks.dropLast ++ [st.chunks.getLastD [] ++ ' ' :: List.intercalate [' '] st.current]
    else st.chunks
  if chunks = [] then [text] else chunks

/-- `TCReviewer.chunk_by_size`. -/
def chunk_by_size (text : List Char) (minC maxC : Nat) : List (List Char) :=
  chunkFinalize text minC ((splitSentences text).foldl (chunkStep maxC minC) ⟨[], [], 0⟩)

/-- `TCReviewer.split_into_sections`: pattern cascade, then paragraph
fallback, then long-line fallback, then size-based chunking. -/
def split_into_sections (text : List Char) : List (List Char) :=
  let s1 := tryPatternsGo text patternLooks
  let s2 := if s1.length < 5 then paraFallback text else s1
  let s3 := if s2.length < 5 then lineFallback text else s2
  if s3.length < 5 then chunk_by_size text 300 2000 else s3

example : split_into_sections "".toList = [[]] := by decide

example : splitSentences "Hi.  Bye".toList = ["Hi.".toList, "Bye".toList] := by decide

example : (reSplit lookNumbered "a\n1. b\n1. c\n1. d\n1. e\n1. f".toList).length = 6 := by
  decide

/-! ## Review ledger, session, verdict -/

/-- A decision returned by `review_section`. -/
inductive Decision where
  | approved
  | disapproved
  | skipped
deriving DecidableEq

/-- A persisted review record: `{status, preview}`. -/
structure RevRecord where
  status : Decision
  preview : List Char
deriving DecidableEq

/-- `self.reviewed_sections`: a Python dict modelled as an association list
in insertion order (keys unique). -/
abbrev Ledger := List (List Char × RevRecord)

def lookupL (L : Ledger) (fp : List Char) : Option RevRecord :=
  (L.find? (fun e => e.1 == fp)).map (fun e => e.2)

def insertL (L : Ledger) (fp : List Char) (r : RevRecord) : Ledger :=
  L ++ [(fp, r)]

/-- Running state of the `process_tc_file` loop: the ledger plus the
counters the loop accumulates.  `prompts` counts `review_section`
invocations so far, `saves` counts `save_database` calls. -/
structure RunState where
  ledger : Ledger
  newCount : Nat
  alreadyCount : Nat
  approvedCount : Nat
  disapprovedCount : Nat
  skippedCount : Nat
  prompts : Nat
  saves : Nat
deriving DecidableEq

def initState (L : Ledger) : RunState := ⟨L, 0, 0, 0, 0, 0, 0, 0⟩

/-- One iteration of the `for i, section in enumerate(sections, 1)` loop of
`process_tc_file`.  The human decisions are an injected oracle indexed by
prompt number (the k-th `review_section` call returns `orc k`). -/
def processStep (orc : Nat → Decision) (st : RunState) (sec : List Char) : RunState :=
  let h := hash_section sec
  match lookupL st.ledger h with
  | some _ => { st with alreadyCount := st.alreadyCount + 1 }
  | none =>
    let d := orc st.prompts
    let st1 := { st with newCount := st.newCount + 1, prompts := st.prompts + 1 }
    let st2 :=
      if d ≠ Decision.skipped then
        { st1 with ledger := insertL st1.ledger h ⟨d, sec.take 200⟩, saves := st1.saves + 1 }
      else st1
    match d with
    | Decision.approved => { st2 with approvedCount := st2.approvedCount + 1 }
    | Decision.disapproved => { st2 with disapprovedCount := st2.disapprovedCount + 1 }
    | Decision.skipped => { st2 with skippedCount := st2.skippedCount + 1 }

/-- The whole review loop of `process_tc_file` over a section list. -/
def processRun (orc : Nat → Decision) (L : Ledger) (secs : List (List Char)) : RunState :=
  secs.foldl (processStep orc) (initState L)

/-- The four document-level outcomes printed by `provide_verdict`. -/
inductive Verdict where
  | incomplete
  | containsDisapproved
  | allApproved
  | noSectionsReviewed
deriving DecidableEq

/-- `TCReviewer.provide_verdict`, as a function of the section list, the
ledger and this run's skipped count. -/
def provide_verdict (secs : List (List Char)) (L : Ledger) (skippedCount : Nat) : Verdict :=
  let allReviewed :=
    (secs.all (fun s => (lookupL L (hash_section s)).isSome)) && skippedCount == 0
  let hasDisapproved :=
    secs.any (fun s =>
      (lookupL L (hash_section s)).map (fun r => r.status) == some Decision.disapproved)
  let hasApproved :=
    secs.any (fun s =>
      (lookupL L (hash_section s)).map (fun r => r.status) == some Decision.approved)
  if !allReviewed then Verdict.incomplete
  else if hasDisapproved then Verdict.containsDisapproved
  else if hasApproved && !hasDisapproved then Verdict.allApproved
  else Verdict.noSectionsReviewed

/-- The verdict precedence exactly as the specification words it:
INCOMPLETE if a fingerprint is missing or anything was skipped this run;
else CONTAINS_DISAPPROVED if some section is disapproved; else ALL_APPROVED
if at least one section is approved; else NO_SECTIONS_REVIEWED. -/
def verdictSpec (secs : List (List Char)) (L : Ledger) (skippedCount : Nat) : Verdict :=
  if secs.any (fun s => (lookupL L (hash_section s)).isNone) || skippedCount > 0 then
    Verdict.incomplete
  else if secs.any (fun s =>
      (lookupL L (hash_section s)).map (fun r => r.status) == some Decision.disapproved) then
    Verdict.containsDisapproved
  else if secs.any (fun s =>
      (lookupL L (hash_section s)).map (fun r => r.status) == some Decision.approved) then
    Verdict.allApproved
  else Verdict.noSectionsReviewed

/-! ## Persistence: `json.dump(..., indent=2, ensure_ascii=False)` and `json.load`

`save_database` renders the ledger exactly as `json.dump` with `indent=2`
and `ensure_ascii=False` does; `load_database` models `json.load` on
documents of the ledger shape (an object mapping strings to
`{"status": string, "preview": string}` objects). -/

def lbraceC : Char := Char.ofNat 123

def rbraceC : Char := Char.ofNat 125

def colonC : Char := Char.ofNat 58

def commaC : Char := Char.ofNat 44

def isJsonWs (c : Char) : Bool :=
  c.toNat == 32 || c.toNat == 9 || c.toNat == 10 || c.toNat == 13

def skipWs (s : List Char) : List Char := s.dropWhile isJsonWs

/-- JSON string escaping as Python's `json` module performs it with
`ensure_ascii=False`: short escapes for quote, backslash and the common
control characters, `\u00XX` for the remaining control characters,
everything else verbatim. -/
def escapeChar (c : Char) : List Char :=
  if c == quoteC then [bslashC, quoteC]
  else if c == bslashC then [bslashC, bslashC]
  else if c.toNat == 10 then [bslashC, 'n']
  else if c.toNat == 9 then [bslashC, 't']
  else if c.toNat == 13 then [bslashC, 'r']
  else if c.toNat == 8 then [bslashC, 'b']
  else if c.toNat == 12 then [bslashC, 'f']
  else if c.toNat < 32 then
    [bslashC, 'u', '0', '0', hexOfNibble (c.toNat / 16), hexOfNibble (c.toNat % 16)]
  else [c]

def escapeStr (s : List Char) : List Char := (s.map escapeChar).flatten

def quoted (s : List Char) : List Char := quoteC :: escapeStr s ++ [quoteC]

def statusText : Decision → List Char
  | Decision.approved => "approved".toList
  | Decision.disapproved => "disapproved".toList
  | Decision.skipped => "skipped".toList

def statusOfText (s : List Char) : Option Decision :=
  if s == "approved".toList then some Decision.approved
  else if s == "disapproved".toList then some Decision.disapproved
  else if s == "skipped".toList then some Decision.skipped
  else none

/-- The `{"status": ..., "preview": ...}` object of one entry, as
`json.dump` renders it at indent level 1. -/
def recordText (r : RevRecord) : List Char :=
  [lbraceC, nlC, ' ', ' ', ' ', ' '] ++ quoted "status".toList ++ [colonC, ' '] ++
  quoted (statusText r.status) ++ [commaC, nlC, ' ', ' ', ' ', ' '] ++
  quoted "preview".toList ++ [colonC, ' '] ++ quoted r.preview ++
  [nlC, ' ', ' ', rbraceC]

/-- One ledger entry without its leading indent. -/
def entryTail (e : List Char × RevRecord) : List Char :=
  quoted e.1 ++ [colonC, ' '] ++ recordText e.2

/-- One ledger entry as `json.dump` renders it at indent level 1. -/
def entryText (e : List Char × RevRecord) : List Char :=
  ' ' :: ' ' :: entryTail e

def joinComma : List (List Char) → List Char
  | [] => []
  | [x] => x
  | x :: y :: xs => x ++ [commaC, nlC] ++ joinComma (y :: xs)

/-- `TCReviewer.save_database`: the exact text written to the file. -/
def save_database (L : Ledger) : List Char :=
  if L.isEmpty then [lbraceC, rbraceC]
  else lbraceC :: nlC :: joinComma (L.map entryText) ++ [nlC, rbraceC]

def unescapeShort (e : Char) : Option Char :=
  if e == quoteC then some quoteC
  else if e == bslashC then some bslashC
  else if e == '/' then some '/'
  else if e == 'n' then some nlC
  else if e == 't' then some (Char.ofNat 9)
  else if e == 'r' then some (Char.ofNat 13)
  else if e == 'b' then some (Char.ofNat 8)
  else if e == 'f' then some (Char.ofNat 12)
  else none

def fromHexDigit (c : Char) : Option Nat :=
  if 48 ≤ c.toNat ∧ c.toNat ≤ 57 then some (c.toNat - 48)
  else if 97 ≤ c.toNat ∧ c.toNat ≤ 102 then some (c.toNat - 87)
  else if 65 ≤ c.toNat ∧ c.toNat ≤ 70 then some (c.toNat - 55)
  else none

/-- Parse a JSON string body (the opening quote already consumed),
returning the decoded string and the remaining input. -/
def parseStrBody : List Char → Option (List Char × List Char)
  | [] => none
  | c :: cs =>
    if c == quoteC then some ([], cs)
    else if c == bslashC then
      match cs with
      | [] => none
      | e :: cs2 =>
        if e == 'u' then
          match cs2 with
          | a :: b :: c2 :: d :: cs3 =>
            match fromHexDigit a, fromHexDigit b, fromHexDigit c2, fromHexDigit d with
            | some ha, some hb, some hc, some hd =>
              match parseStrBody cs3 with
              | some (s, r) => some (Char.ofNat (((ha * 16 + hb) * 16 + hc) * 16 + hd) :: s, r)
              | none => none
            | _, _, _, _ => none
          | _ => none
        else
          match unescapeShort e with
          | some ch =>
            match parseStrBody cs2 with
            | some (s, r) => some (ch :: s, r)
            | none => none
          | none => none
    else
      match parseStrBody cs with
      | some (s, r) => some (c :: s, r)
      | none => none

def expectC (c : Char) (s : List Char) : Option (List Char) :=
  match s with
  | x :: r => if x == c then some r else none
  | [] => none

def parseQuotedStr (s : List Char) : Option (List Char × List Char) :=
  match expectC quoteC s with
  | some s1 => parseStrBody s1
  | none => none

/-- Parse `"key": "value"` (with the given fixed key), whitespace allowed
before each token. -/
def parseKeyVal (key : List Char) (s : List Char) : Option (List Char × List Char) :=
  match parseQuotedStr (skipWs s) with
  | some (k, s1) =>
    if k == key then
      match expectC colonC (skipWs s1) with
      | some s2 => parseQuotedStr (skipWs s2)
      | none => none
    else none
  | none => none

/-- Parse a `{"status": ..., "preview": ...}` record object. -/
def parseRecordObj (s : List Char) : Option (RevRecord × List Char) :=
  match expectC lbraceC (skipWs s) with
  | some s1 =>
    match parseKeyVal "status".toList s1 with
    | some (stText, s2) =>
      match statusOfText stText with
      | some st =>
        match expectC commaC (skipWs s2) with
        | some s3 =>
          match parseKeyVal "preview".toList s3 with
          | some (pv, s4) =>
            match expectC rbraceC (skipWs s4) with
            | some s5 => some (⟨st, pv⟩, s5)
            | none => none
          | none => none
        | none => none
      | none => none
    | none => none
  | none => none

/-- Parse one `"key": {record}` entry (the input starts at the key's
opening quote). -/
def parseEntry (s : List Char) : Option ((List Char × RevRecord) × List Char) :=
  match parseQuotedStr s with
  | some (key, s1) =>
    match expectC colonC (skipWs s1) with
    | some s2 =>
      match parseRecordObj s2 with
      | some (r, s3) => some ((key, r), s3)
      | none => none
    | none => none
  | none => none

/-- Parse the comma-separated entries of the top-level object, up to and
including the closing brace.  The fuel bounds the number of entries. -/
def parseEntries : Nat → List Char → Option (Ledger × List Char)
  | 0, _ => none
  | fuel + 1, s =>
    match parseEntry s with
    | some (e, s1) =>
      (match skipWs s1 with
       | c :: r =>
         if c == commaC then
           match parseEntries fuel (skipWs r) with
           | some (es, rest) => some (e :: es, rest)
           | none => none
         else if c == rbraceC then some ([e], r)
         else none
       | [] => none)
    | none => none

/-- `json.load` on a ledger document: the whole input must be one object
(with optional surrounding whitespace). -/
def load_database (s : List Char) : Option Ledger :=
  match skipWs s with
  | c :: r =>
    if c == lbraceC then
      match skipWs r with
      | d :: r2 =>
        if d == rbraceC then (if skipWs r2 == [] then some [] else none)
        else
          match parseEntries (s.length + 1) (skipWs r) with
          | some (es, rest) => if skipWs rest == [] then some es else none
          | none => none
      | [] => none
    else none
  | [] => none

example :
    load_database (save_database
      [("aa".toList, ⟨Decision.approved, "p\n1".toList⟩),
       ("bb".toList, ⟨Decision.disapproved, (Char.ofNat 7) :: quoteC :: bslashC :: []⟩)]) =
    some [("aa".toList, ⟨Decision.approved, "p\n1".toList⟩),
          ("bb".toList, ⟨Decision.disapproved, (Char.ofNat 7) :: quoteC :: bslashC :: []⟩)] := by
  decide

/-! ## Normalization lemmas for the Hasher -/

theorem toNat_ofNat_valid (n : Nat) (h : n < 55296) : (Char.ofNat n).toNat = n := by
  rw [Char.ofNat, dif_pos (Or.inl h)]
  rfl

theorem toNat_toLower (c : Char) :
    (Char.toLower c).toNat =
      if 65 ≤ c.toNat ∧ c.toNat ≤ 90 then c.toNat + 32 else c.toNat := by
  by_cases h : 65 ≤ c.toNat ∧ c.toNat ≤ 90
  · rw [if_pos h]
    unfold Char.toLower
    rw [if_pos ⟨h.1, h.2⟩]
    exact toNat_ofNat_valid _ (by omega)
  · rw [if_neg h]
    unfold Char.toLower
    rw [if_neg (fun hc => h ⟨hc.1, hc.2⟩)]

theorem toLower_of_not_upper {c : Char} (h : ¬(65 ≤ c.toNat ∧ c.toNat ≤ 90)) :
    Char.toLower c = c := by
  unfold Char.toLower
  exact if_neg (fun hc => h ⟨hc.1, hc.2⟩)

theorem toLower_toLower (c : Char) : Char.toLower (Char.toLower c) = Char.toLower c := by
  by_cases h : 65 ≤ c.toNat ∧ c.toNat ≤ 90
  · have h1 : (Char.toLower c).toNat = c.toNat + 32 := by
      rw [toNat_toLower, if_pos h]
    exact toLower_of_not_upper (by omega)
  · rw [toLower_of_not_upper h, toLower_of_not_upper h]

theorem isPySpace_toLower (c : Char) : isPySpace (Char.toLower c) = isPySpace c := by
  simp only [isPySpace, toNat_toLower]
  split
  · next h => simp only [decide_eq_decide]; omega
  · rfl

theorem plower_idem (s : List Char) : plower (plower s) = plower s := by
  simp only [plower, List.map_map, Function.comp_def, toLower_toLower]

theorem pstrip_plower (s : List Char) : pstrip (plower s) = plower (pstrip s) := by
  simp only [pstrip, plower, List.dropWhile_map, Function.comp_def, isPySpace_toLower,
    ← List.map_reverse]

theorem dropWhile_dropWhile (p : Char → Bool) (l : List Char) :
    (l.dropWhile p).dropWhile p = l.dropWhile p := by
  induction l with
  | nil => rfl
  | cons a t ih =>
    by_cases ha : p a
    · rw [List.dropWhile_cons_of_pos ha]
      exact ih
    · rw [List.dropWhile_cons_of_neg ha, List.dropWhile_cons_of_neg ha]

theorem dropWhile_stripBack (p : Char → Bool) (u : List Char)
    (hu : u.dropWhile p = u) :
    ((u.reverse.dropWhile p).reverse).dropWhile p = (u.reverse.dropWhile p).reverse := by
  have hpre : (u.reverse.dropWhile p).reverse <+: u := by
    have hs : u.reverse.dropWhile p <:+ u.reverse := List.dropWhile_suffix p
    have := List.reverse_prefix.mpr hs
    rwa [List.reverse_reverse] at this
  cases hv : (u.reverse.dropWhile p).reverse with
  | nil => rfl
  | cons a t =>
    rw [hv] at hpre
    obtain ⟨w, hw⟩ := hpre
    have hpa : p a = false := by
      by_contra hcon
      have hpa' : p a = true := by
        cases hpab : p a
        · exact absurd hpab hcon
        · rfl
      rw [← hw, List.cons_append] at hu
      rw [List.dropWhile_cons_of_pos hpa'] at hu
      have hlen : ((t ++ w).dropWhile p).length ≤ (t ++ w).length :=
        (List.dropWhile_suffix p).sublist.length_le
      rw [hu] at hlen
      simp at hlen
    rw [List.dropWhile_cons_of_neg (by simp [hpa])]

theorem pstrip_idem (s : List Char) : pstrip (pstrip s) = pstrip s := by
  unfold pstrip
  have hu : (s.dropWhile isPySpace).dropWhile isPySpace = s.dropWhile isPySpace :=
    dropWhile_dropWhile _ _
  rw [dropWhile_stripBack _ _ hu, List.reverse_reverse, dropWhile_dropWhile]

theorem normalize_idem (s : List Char) :
    plower (pstrip (plower (pstrip s))) = plower (pstrip s) := by
  rw [pstrip_plower, pstrip_idem, plower_idem]

/-- C5: `fingerprint` normalizes by stripping and lowercasing before
hashing: for every string `s`, `hash_section s` equals `hash_section` of
the stripped lowercased form of `s`; in particular the two concrete
instances of the claim, where the distinct digests witness that internal
whitespace differences are preserved. -/
theorem C5_fingerprint_stability :
    (∀ s : List Char, hash_section s = hash_section (plower (pstrip s))) ∧
    hash_section " Foo ".toList = hash_section "foo".toList ∧
    hash_section "Foo\nBar".toList ≠ hash_section "foo bar".toList := by
  refine ⟨fun s => ?_, by decide, by decide⟩
  unfold hash_section
  rw [normalize_idem]

/-- C9: segmenting the empty document yields exactly one section, the
(empty-after-trim) text itself, and its fingerprint is computed without
error (it is the SHA-256 digest of the empty byte string). -/
theorem C9_empty_document :
    split_into_sections [] = [[]] ∧
    hash_section [] =
      "e3b0c44298fc1c149afbf4c8996fb92427ae41e4649b934ca495991b7852b855".toList := by
  decide

/-! ## Verdict precedence (C2) -/

def secA : List Char := "Approve me".toList

def secB : List Char := "Reject me".toList

def ledgerAD : Ledger :=
  [(hash_section secA, ⟨Decision.approved, secA.take 200⟩),
   (hash_section secB, ⟨Decision.disapproved, secB.take 200⟩)]

def ledgerAA : Ledger :=
  [(hash_section secA, ⟨Decision.approved, secA.take 200⟩),
   (hash_section secB, ⟨Decision.approved, secB.take 200⟩)]

def ledgerAonly : Ledger :=
  [(hash_section secA, ⟨Decision.approved, secA.take 200⟩)]

theorem any_isNone_eq_not_all_isSome (secs : List (List Char)) (L : Ledger) :
    secs.any (fun s => (lookupL L (hash_section s)).isNone)
      = !secs.all (fun s => (lookupL L (hash_section s)).isSome) := by
  induction secs with
  | nil => rfl
  | cons a t ih =>
    rw [List.any_cons, List.all_cons, ih]
    cases lookupL L (hash_section a) <;> simp

/-- C2: `provide_verdict` realizes exactly the specified precedence
(INCOMPLETE on any missing fingerprint or any skip this run, else
CONTAINS_DISAPPROVED on any disapproved section, else ALL_APPROVED when
some section is approved, else NO_SECTIONS_REVIEWED), together with the
four particular cases of the claim: {approved, disapproved},
{approved, approved}, {approved, missing}, and one skip with all
sections approved. -/
theorem C2_verdict_precedence :
    (∀ (secs : List (List Char)) (L : Ledger) (k : Nat),
        provide_verdict secs L k = verdictSpec secs L k) ∧
    provide_verdict [secA, secB] ledgerAD 0 = Verdict.containsDisapproved ∧
    provide_verdict [secA, secB] ledgerAA 0 = Verdict.allApproved ∧
    provide_verdict [secA, secB] ledgerAonly 0 = Verdict.incomplete ∧
    provide_verdict [secA, secB] ledgerAA 1 = Verdict.incomplete := by
  refine ⟨fun secs L k => ?_, by decide, by decide, by decide, by decide⟩
  simp only [provide_verdict, verdictSpec, any_isNone_eq_not_all_isSome]
  cases hall : secs.all (fun s => (lookupL L (hash_section s)).isSome) <;>
  cases hD : secs.any (fun s =>
      (lookupL L (hash_section s)).map (fun r => r.status) == some Decision.disapproved) <;>
  cases hA : secs.any (fun s =>
      (lookupL L (hash_section s)).map (fun r => r.status) == some Decision.approved) <;>
  cases k <;>
  simp

/-! ## Session lemmas: the `process_tc_file` loop -/

theorem lookupL_insertL_ne (L : Ledger) (fp fp' : List Char) (r : RevRecord)
    (h : fp ≠ fp') : lookupL (insertL L fp r) fp' = lookupL L fp' := by
  unfold lookupL insertL
  rw [List.find?_append]
  cases hf : L.find? (fun e => e.1 == fp') with
  | some e => rfl
  | none =>
    simp only [Option.none_or]
    rw [List.find?_singleton, if_neg (by simp [h])]

theorem lookupL_insertL_self (L : Ledger) (fp : List Char) (r : RevRecord)
    (h : lookupL L fp = none) : lookupL (insertL L fp r) fp = some r := by
  unfold lookupL insertL
  rw [List.find?_append]
  unfold lookupL at h
  cases hf : L.find? (fun e => e.1 == fp) with
  | some e => rw [hf] at h; simp at h
  | none => simp

theorem processStep_present (orc : Nat → Decision) (st : RunState) (sec : List Char)
    (r : RevRecord) (hl : lookupL st.ledger (hash_section sec) = some r) :
    processStep orc st sec = { st with alreadyCount := st.alreadyCount + 1 } := by
  simp only [processStep]
  rw [hl]

theorem processStep_new_approved (orc : Nat → Decision) (st : RunState) (sec : List Char)
    (hl : lookupL st.ledger (hash_section sec) = none)
    (hd : orc st.prompts = Decision.approved) :
    processStep orc st sec =
      { st with
        ledger := insertL st.ledger (hash_section sec) ⟨Decision.approved, sec.take 200⟩,
        newCount := st.newCount + 1, prompts := st.prompts + 1, saves := st.saves + 1,
        approvedCount := st.approvedCount + 1 } := by
  simp only [processStep]
  rw [hl, hd]
  rfl

theorem processStep_new_disapproved (orc : Nat → Decision) (st : RunState) (sec : List Char)
    (hl : lookupL st.ledger (hash_section sec) = none)
    (hd : orc st.prompts = Decision.disapproved) :
    processStep orc st sec =
      { st with
        ledger := insertL st.ledger (hash_section sec) ⟨Decision.disapproved, sec.take 200⟩,
        newCount := st.newCount + 1, prompts := st.prompts + 1, saves := st.saves + 1,
        disapprovedCount := st.disapprovedCount + 1 } := by
  simp only [processStep]
  rw [hl, hd]
  rfl

theorem processStep_new_skipped (orc : Nat → Decision) (st : RunState) (sec : List Char)
    (hl : lookupL st.ledger (hash_section sec) = none)
    (hd : orc st.prompts = Decision.skipped) :
    processStep orc st sec =
      { st with
        newCount := st.newCount + 1, prompts := st.prompts + 1,
        skippedCount := st.skippedCount + 1 } := by
  simp only [processStep]
  rw [hl, hd]
  rfl

theorem foldl_all_present (orc : Nat → Decision) (secs : List (List Char)) :
    ∀ st : RunState,
      (∀ s ∈ secs, (lookupL st.ledger (hash_section s)).isSome) →
      secs.foldl (processStep orc) st =
        { st with alreadyCount := st.alreadyCount + secs.length } := by
  induction secs with
  | nil => intro st h; simp
  | cons a t ih =>
    intro st h
    rw [List.foldl_cons]
    obtain ⟨r, hr⟩ := Option.isSome_iff_exists.mp (h a (List.mem_cons_self a t))
    rw [processStep_present orc st a r hr]
    rw [ih { st with alreadyCount := st.alreadyCount + 1 }
      (fun s hs => h s (List.mem_cons_of_mem _ hs))]
    simp only [List.length_cons, RunState.mk.injEq, and_true, true_and]
    omega

/-- C7: re-processing a document whose sections all already have ledger
records performs zero writes (`saves = 0`, ledger unchanged so every stored
record is untouched), never invokes the decide callback (`prompts = 0`),
and reports `alreadyReviewed = total`, `new = 0`. -/
theorem C7_reprocess_all_known (secs : List (List Char)) (L : Ledger)
    (orc : Nat → Decision)
    (h : ∀ s ∈ secs, (lookupL L (hash_section s)).isSome) :
    processRun orc L secs =
      { ledger := L, newCount := 0, alreadyCount := secs.length, approvedCount := 0,
        disapprovedCount := 0, skippedCount := 0, prompts := 0, saves := 0 } := by
  unfold processRun
  rw [foldl_all_present orc secs (initState L) h]
  simp [initState]

/-- Witness for C7: a one-section document whose section is already in the
ledger is re-processed with no writes and no prompts. -/
theorem C7_witness :
    processRun (fun _ => Decision.disapproved) ledgerAonly [secA] =
      { ledger := ledgerAonly, newCount := 0, alreadyCount := 1, approvedCount := 0,
        disapprovedCount := 0, skippedCount := 0, prompts := 0, saves := 0 } :=
  C7_reprocess_all_known [secA] ledgerAonly (fun _ => Decision.disapproved) (by decide)

/-! ## C3: reachable ledgers never contain a skipped record -/

/-- Ledgers reachable from the empty ledger by session operations:
processing a file (any sections, any decisions) or clearing the database. -/
inductive Reachable : Ledger → Prop where
  | empty : Reachable []
  | process (secs : List (List Char)) (orc : Nat → Decision) {L : Ledger} :
      Reachable L → Reachable (processRun orc L secs).ledger
  | clearDb {L : Ledger} : Reachable L → Reachable []

def noSkipped (L : Ledger) : Prop :=
  ∀ e ∈ L, e.2.status ≠ Decision.skipped

theorem noSkipped_step (orc : Nat → Decision) (st : RunState) (sec : List Char)
    (h : noSkipped st.ledger) : noSkipped (processStep orc st sec).ledger := by
  cases hl : lookupL st.ledger (hash_section sec) with
  | some r => rw [processStep_present orc st sec r hl]; exact h
  | none =>
    cases hd : orc st.prompts with
    | approved =>
      rw [processStep_new_approved orc st sec hl hd]
      intro e he
      rcases List.mem_append.mp he with h1 | h1
      · exact h e h1
      · rw [List.mem_singleton.mp h1]; simp
    | disapproved =>
      rw [processStep_new_disapproved orc st sec hl hd]
      intro e he
      rcases List.mem_append.mp he with h1 | h1
      · exact h e h1
      · rw [List.mem_singleton.mp h1]; simp
    | skipped =>
      rw [processStep_new_skipped orc st sec hl hd]
      exact h

theorem noSkipped_foldl (orc : Nat → Decision) (secs : List (List Char)) :
    ∀ st : RunState, noSkipped st.ledger →
      noSkipped ((secs.foldl (processStep orc) st)).ledger := by
  induction secs with
  | nil => intro st h; exact h
  | cons a t ih =>
    intro st h
    rw [List.foldl_cons]
    exact ih _ (noSkipped_step orc st a h)

/-- C3: over every sequence of session operations starting from the empty
ledger, the ledger never contains a `skipped` entry; moreover a skipped
decision for a new section performs no write at all (ledger and save count
unchanged), so only approved or disapproved decisions insert records. -/
theorem C3_skipped_never_persisted :
    (∀ L : Ledger, Reachable L → noSkipped L) ∧
    (∀ (orc : Nat → Decision) (st : RunState) (sec : List Char),
      lookupL st.ledger (hash_section sec) = none →
      orc st.prompts = Decision.skipped →
      (processStep orc st sec).ledger = st.ledger ∧
      (processStep orc st sec).saves = st.saves) := by
  constructor
  · intro L h
    induction h with
    | empty => intro e he; simp at he
    | process secs orc hL ih => exact noSkipped_foldl orc secs _ ih
    | clearDb hL ih => intro e he; simp at he
  · intro orc st sec hl hd
    rw [processStep_new_skipped orc st sec hl hd]
    exact ⟨rfl, rfl⟩

/-- Witness for C3: a ledger reached by approving one section contains its
record, whose status is indeed not `skipped`; and a concrete skipped
decision leaves the empty ledger and save count untouched. -/
theorem C3_witness :
    ((⟨Decision.approved, secA.take 200⟩ : RevRecord).status ≠ Decision.skipped) ∧
    (processStep (fun _ => Decision.skipped) (initState []) secA).ledger = [] ∧
    (processStep (fun _ => Decision.skipped) (initState []) secA).saves = 0 := by
  refine ⟨?_, ?_, ?_⟩
  · exact C3_skipped_never_persisted.1
      (processRun (fun _ => Decision.approved) [] [secA]).ledger
      (Reachable.process [secA] (fun _ => Decision.approved) Reachable.empty)
      (hash_section secA, ⟨Decision.approved, secA.take 200⟩)
      (by decide)
  · exact (C3_skipped_never_persisted.2 (fun _ => Decision.skipped) (initState []) secA
      (by decide) rfl).1
  · exact (C3_skipped_never_persisted.2 (fun _ => Decision.skipped) (initState []) secA
      (by decide) rfl).2

/-! ## C10: duplicate fingerprints within a single run -/

theorem lookupL_mono_step (orc : Nat → Decision) (st : RunState) (sec : List Char)
    (fp : List Char) (r : RevRecord) (h : lookupL st.ledger fp = some r) :
    lookupL (processStep orc st sec).ledger fp = some r := by
  cases hl : lookupL st.ledger (hash_section sec) with
  | some r' => rw [processStep_present orc st sec r' hl]; exact h
  | none =>
    have hne : hash_section sec ≠ fp := by
      intro he
      rw [he, h] at hl
      exact Option.noConfusion hl
    cases hd : orc st.prompts with
    | approved =>
      rw [processStep_new_approved orc st sec hl hd]
      show lookupL (insertL st.ledger (hash_section sec) ⟨Decision.approved, sec.take 200⟩) fp
        = some r
      rw [lookupL_insertL_ne _ _ _ _ hne]
      exact h
    | disapproved =>
      rw [processStep_new_disapproved orc st sec hl hd]
      show lookupL (insertL st.ledger (hash_section sec) ⟨Decision.disapproved, sec.take 200⟩) fp
        = some r
      rw [lookupL_insertL_ne _ _ _ _ hne]
      exact h
    | skipped =>
      rw [processStep_new_skipped orc st sec hl hd]
      exact h

theorem lookupL_mono_foldl (orc : Nat → Decision) (mid : List (List Char)) :
    ∀ (st : RunState) (fp : List Char) (r : RevRecord),
      lookupL st.ledger fp = some r →
      lookupL ((mid.foldl (processStep orc) st)).ledger fp = some r := by
  induction mid with
  | nil => intro st fp r h; exact h
  | cons a tl ih =>
    intro st fp r h
    rw [List.foldl_cons]
    exact ih _ _ _ (lookupL_mono_step orc st a fp r h)

theorem lookupL_none_step (orc : Nat → Decision) (st : RunState) (sec : List Char)
    (fp : List Char) (h : lookupL st.ledger fp = none)
    (hne : hash_section sec ≠ fp) :
    lookupL (processStep orc st sec).ledger fp = none := by
  cases hl : lookupL st.ledger (hash_section sec) with
  | some r' => rw [processStep_present orc st sec r' hl]; exact h
  | none =>
    cases hd : orc st.prompts with
    | approved =>
      rw [processStep_new_approved orc st sec hl hd]
      show lookupL (insertL st.ledger (hash_section sec) ⟨Decision.approved, sec.take 200⟩) fp
        = none
      rw [lookupL_insertL_ne _ _ _ _ hne]
      exact h
    | disapproved =>
      rw [processStep_new_disapproved orc st sec hl hd]
      show lookupL (insertL st.ledger (hash_section sec) ⟨Decision.disapproved, sec.take 200⟩) fp
        = none
      rw [lookupL_insertL_ne _ _ _ _ hne]
      exact h
    | skipped =>
      rw [processStep_new_skipped orc st sec hl hd]
      exact h

theorem lookupL_none_foldl (orc : Nat → Decision) (mid : List (List Char)) :
    ∀ (st : RunState) (fp : List Char),
      lookupL st.ledger fp = none →
      (∀ u ∈ mid, hash_section u ≠ fp) →
      lookupL ((mid.foldl (processStep orc) st)).ledger fp = none := by
  induction mid with
  | nil => intro st fp h _; exact h
  | cons a tl ih =>
    intro st fp h hne
    rw [List.foldl_cons]
    exact ih _ _ (lookupL_none_step orc st a fp h (hne a (List.mem_cons_self a tl)))
      (fun u hu => hne u (List.mem_cons_of_mem _ hu))

theorem processStep_new_counts (orc : Nat → Decision) (st : RunState) (sec : List Char)
    (hl : lookupL st.ledger (hash_section sec) = none) :
    (processStep orc st sec).prompts = st.prompts + 1 ∧
    (processStep orc st sec).newCount = st.newCount + 1 := by
  cases hd : orc st.prompts with
  | approved => rw [processStep_new_approved orc st sec hl hd]; exact ⟨rfl, rfl⟩
  | disapproved => rw [processStep_new_disapproved orc st sec hl hd]; exact ⟨rfl, rfl⟩
  | skipped => rw [processStep_new_skipped orc st sec hl hd]; exact ⟨rfl, rfl⟩

/-- C10: within one run (processing is a fold of `processStep`, so a run
over `pre ++ rest` continues from the state after `pre`), if a new section
`s` receives a non-skip decision, then any later section `t` with the same
fingerprint is not prompted: the loop finds the record just written (with
the status just recorded) and counts it as already reviewed, prompts and
ledger unchanged.  If `s` was skipped instead (and no section in between
carries the same fingerprint), the later occurrence is prompted again as a
new section. -/
theorem C10_duplicate_fingerprints :
    (∀ (orc : Nat → Decision) (L : Ledger) (xs ys : List (List Char)),
      processRun orc L (xs ++ ys) = ys.foldl (processStep orc) (processRun orc L xs)) ∧
    (∀ (orc : Nat → Decision) (st0 : RunState) (s t : List Char) (mid : List (List Char)),
      hash_section s = hash_section t →
      lookupL st0.ledger (hash_section s) = none →
      ((orc st0.prompts ≠ Decision.skipped →
        lookupL ((mid.foldl (processStep orc) (processStep orc st0 s))).ledger
            (hash_section t) = some ⟨orc st0.prompts, s.take 200⟩ ∧
        processStep orc (mid.foldl (processStep orc) (processStep orc st0 s)) t =
          { (mid.foldl (processStep orc) (processStep orc st0 s)) with
            alreadyCount :=
              ((mid.foldl (processStep orc) (processStep orc st0 s))).alreadyCount + 1 }) ∧
       (orc st0.prompts = Decision.skipped →
        (∀ u ∈ mid, hash_section u ≠ hash_section s) →
        (processStep orc (mid.foldl (processStep orc) (processStep orc st0 s)) t).prompts =
          ((mid.foldl (processStep orc) (processStep orc st0 s))).prompts + 1 ∧
        (processStep orc (mid.foldl (processStep orc) (processStep orc st0 s)) t).newCount =
          ((mid.foldl (processStep orc) (processStep orc st0 s))).newCount + 1))) := by
  constructor
  · intro orc L xs ys
    unfold processRun
    exact List.foldl_append _ _ _ _
  · intro orc st0 s t mid hst habs
    constructor
    · intro hns
      have hlook : lookupL (processStep orc st0 s).ledger (hash_section s) =
          some ⟨orc st0.prompts, s.take 200⟩ := by
        cases hd : orc st0.prompts with
        | approved =>
          rw [processStep_new_approved orc st0 s habs hd]
          exact lookupL_insertL_self _ _ _ habs
        | disapproved =>
          rw [processStep_new_disapproved orc st0 s habs hd]
          exact lookupL_insertL_self _ _ _ habs
        | skipped => exact absurd hd hns
      have hM := lookupL_mono_foldl orc mid (processStep orc st0 s) (hash_section s)
        ⟨orc st0.prompts, s.take 200⟩ hlook
      rw [hst] at hM
      exact ⟨hM, processStep_present orc _ t ⟨orc st0.prompts, s.take 200⟩ hM⟩
    · intro hskip hmid
      have hS : lookupL (processStep orc st0 s).ledger (hash_section s) = none := by
        rw [processStep_new_skipped orc st0 s habs hskip]
        exact habs
      have hM := lookupL_none_foldl orc mid (processStep orc st0 s) (hash_section s) hS hmid
      rw [hst] at hM
      exact processStep_new_counts orc _ t hM

/-- Witness for C10: with the two-section document `[secA, secA]` and an
always-approve oracle, the second occurrence is found in the ledger with
the just-recorded status and is not prompted; with an always-skip oracle it
is prompted again as new. -/
theorem C10_witness :
    processRun (fun _ => Decision.approved) [] ([] ++ [secA]) =
      [secA].foldl (processStep (fun _ => Decision.approved))
        (processRun (fun _ => Decision.approved) [] []) ∧
    lookupL (([] : List (List Char)).foldl (processStep (fun _ => Decision.approved))
        (processStep (fun _ => Decision.approved) (initState []) secA)).ledger
        (hash_section secA) = some ⟨Decision.approved, secA.take 200⟩ ∧
    (processStep (fun _ => Decision.skipped)
      (([] : List (List Char)).foldl (processStep (fun _ => Decision.skipped))
        (processStep (fun _ => Decision.skipped) (initState []) secA)) secA).prompts =
      (([] : List (List Char)).foldl (processStep (fun _ => Decision.skipped))
        (processStep (fun _ => Decision.skipped) (initState []) secA)).prompts + 1 := by
  refine ⟨C10_duplicate_fingerprints.1 (fun _ => Decision.approved) [] [] [secA], ?_, ?_⟩
  · exact ((C10_duplicate_fingerprints.2 (fun _ => Decision.approved) (initState []) secA secA
      [] rfl (by decide)).1 (by decide)).1
  · exact (((C10_duplicate_fingerprints.2 (fun _ => Decision.skipped) (initState []) secA secA
      [] rfl (by decide)).2 rfl (fun u hu => absurd hu (by simp))).1)

/-! ## C1: the pattern-cascade acceptance threshold -/

/-- Raw-split count of 6 for pattern (a) but only 5 non-empty trimmed
pieces: the leading newline contributes an empty raw piece. -/
def tx1 : List Char :=
  ("\nHEADER AAAAAA\nbody1\nHEADER BBBBBB\nbody2\nHEADER CCCCCC\nbody3" ++
   "\nHEADER DDDDDD\nbody4\nHEADER EEEEEE\nbody5").toList

/-- Six sections separated by pattern (b) boundaries, no blank line. -/
def tx4 : List Char := "a\n1. b\n1. c\n1. d\n1. e\n1. f".toList

/-- Six non-empty pieces for pattern (a). -/
def tx6 : List Char :=
  ("intro\nHEADER AAAAAA\nbody1\nHEADER BBBBBB\nbody2\nHEADER CCCCCC\nbody3" ++
   "\nHEADER DDDDDD\nbody4\nHEADER EEEEEE\nbody5").toList

theorem trimFilter_length_le (pieces : List (List Char)) :
    (trimFilter pieces).length ≤ pieces.length := by
  unfold trimFilter
  exact Nat.le_trans (List.length_filter_le _ _) (Nat.le_of_eq (List.length_map _ _))

/-- Counterexample to C1 as stated: on `tx1`, pattern (a)'s split is
accepted as the final section list although it yields only 5 non-empty
trimmed pieces — the code tests the threshold on the raw split count
(6 here, because of a leading empty piece), not on the non-empty count. -/
theorem C1_counterexample :
    split_into_sections tx1 = trimFilter (reSplit lookStandalone tx1) ∧
    (trimFilter (reSplit lookStandalone tx1)).length = 5 ∧
    (reSplit lookStandalone tx1).length = 6 := by
  decide

/-- C1 (amended): the cascade acceptance works on the raw split count:
for each pattern in the fixed order, if its raw split has more than 5
pieces it is accepted (its trimmed non-empty pieces become the candidate
list) and no later pattern is tried, otherwise the next pattern is tried;
an accepted candidate list reaches the caller unchanged only when it still
has at least 5 pieces (otherwise the fallbacks run); and in particular, for
any text where pattern (a) produces exactly 6 non-empty pieces, `segment`
returns those 6 pieces verbatim (trimmed). -/
theorem C1_pattern_threshold :
    (∀ (text : List Char) (p : List Char → Bool) (ps : List (List Char → Bool)),
      ((reSplit p text).length > 5 →
        tryPatternsGo text (p :: ps) = trimFilter (reSplit p text)) ∧
      ((reSplit p text).length ≤ 5 →
        tryPatternsGo text (p :: ps) = tryPatternsGo text ps)) ∧
    (∀ text : List Char, 5 ≤ (tryPatternsGo text patternLooks).length →
      split_into_sections text = tryPatternsGo text patternLooks) ∧
    (∀ text : List Char, (trimFilter (reSplit lookStandalone text)).length = 6 →
      split_into_sections text = trimFilter (reSplit lookStandalone text)) := by
  have hstep : ∀ (text : List Char) (p : List Char → Bool) (ps : List (List Char → Bool)),
      ((reSplit p text).length > 5 →
        tryPatternsGo text (p :: ps) = trimFilter (reSplit p text)) ∧
      ((reSplit p text).length ≤ 5 →
        tryPatternsGo text (p :: ps) = tryPatternsGo text ps) := by
    intro text p ps
    constructor
    · intro h
      unfold tryPatternsGo
      rw [if_pos h]
    · intro h
      unfold tryPatternsGo
      rw [if_neg (by omega)]
      cases ps <;> rfl
  have haccept : ∀ text : List Char, 5 ≤ (tryPatternsGo text patternLooks).length →
      split_into_sections text = tryPatternsGo text patternLooks := by
    intro text h
    simp only [split_into_sections]
    have h1 : ¬((tryPatternsGo text patternLooks).length < 5) := by omega
    rw [if_neg h1, if_neg h1, if_neg h1]
  refine ⟨hstep, haccept, fun text h6 => ?_⟩
  have hraw : (reSplit lookStandalone text).length > 5 := by
    have := trimFilter_length_le (reSplit lookStandalone text)
    omega
  have h1 : tryPatternsGo text patternLooks = trimFilter (reSplit lookStandalone text) :=
    (hstep text lookStandalone _).1 hraw
  rw [← h1]
  exact haccept text (by rw [h1]; omega)

/-- Witness for C1: each branch of the amended statement discharged at a
concrete text — pattern (a) accepted on `tx1`, pattern (a) rejected on
`tx4` (so the cascade moves on to pattern (b)), an accepted candidate list
of ≥5 pieces returned unchanged on `tx4`, and the 6-non-empty-pieces case
on `tx6`. -/
theorem C1_witness :
    tryPatternsGo tx1 patternLooks = trimFilter (reSplit lookStandalone tx1) ∧
    tryPatternsGo tx4 patternLooks =
      tryPatternsGo tx4 [lookNumbered, lookKeyword "Article".toList,
        lookKeyword "Section".toList] ∧
    split_into_sections tx4 = tryPatternsGo tx4 patternLooks ∧
    split_into_sections tx6 = trimFilter (reSplit lookStandalone tx6) := by
  refine ⟨(C1_pattern_threshold.1 tx1 lookStandalone _).1 (by decide),
    (C1_pattern_threshold.1 tx4 lookStandalone _).2 (by decide),
    C1_pattern_threshold.2.1 tx4 (by decide),
    C1_pattern_threshold.2.2 tx6 (by decide)⟩

/-! ## C6: size-based chunking fallback -/

/-- Two sentences separated by a double space: the joined remainder
collapses the separator to a single space while the code returns the
original text. -/
def tc6 : List Char := "Hi.  Bye".toList

/-- Counterexample to C6 as stated: on `tc6` the trailing chunk (all the
sentences) is below `minChars` and no chunk was closed; the claim says the
remainder (the space-joined sentences) is emitted as the chunk, but the
code returns the original text, and the two differ. -/
theorem C6_counterexample :
    splitSentences tc6 = ["Hi.".toList, "Bye".toList] ∧
    chunk_by_size tc6 300 2000 = [tc6] ∧
    chunk_by_size tc6 300 2000 ≠ [List.intercalate [' '] (splitSentences tc6)] := by
  decide

/-- C6 (amended): the greedy loop closes the current chunk and starts a new
one with the incoming sentence exactly when adding it would push the length
counter over `maxChars` and the counter has reached `minChars`; at end of
input a trailing chunk that reached `minChars` is emitted, a trailing chunk
below `minChars` is merged into the previous chunk when one exists, and
when no chunk was closed the original text is returned as the single
section (the joined trailing chunk is discarded); the result is never
empty. -/
theorem C6_chunking :
    (∀ (text : List Char) (minC maxC : Nat), chunk_by_size text minC maxC ≠ []) ∧
    (∀ (maxC minC : Nat) (st : ChunkSt) (s : List Char),
      (st.curlen + s.length > maxC ∧ minC ≤ st.curlen →
        chunkStep maxC minC st s =
          ⟨st.chunks ++ [List.intercalate [' '] st.current], [s], s.length⟩) ∧
      (¬(st.curlen + s.length > maxC ∧ minC ≤ st.curlen) →
        chunkStep maxC minC st s =
          ⟨st.chunks, st.current ++ [s], st.curlen + s.length + 1⟩)) ∧
    (∀ (text : List Char) (minC : Nat) (st : ChunkSt),
      (st.current ≠ [] → minC ≤ st.curlen →
        chunkFinalize text minC st = st.chunks ++ [List.intercalate [' '] st.current]) ∧
      (st.current ≠ [] → st.curlen < minC → st.chunks ≠ [] →
        chunkFinalize text minC st =
          st.chunks.dropLast ++
            [st.chunks.getLastD [] ++ ' ' :: List.intercalate [' '] st.current]) ∧
      (st.current ≠ [] → st.curlen < minC → st.chunks = [] →
        chunkFinalize text minC st = [text])) := by
  have haux : ∀ (tx : List Char) (c : List (List Char)),
      (if c = [] then [tx] else c) ≠ [] := by
    intro tx c
    split
    · simp
    · next h => exact h
  refine ⟨?_, ?_, ?_⟩
  · intro text minC maxC
    unfold chunk_by_size chunkFinalize
    exact haux text _
  · intro maxC minC st s
    constructor
    · intro h
      unfold chunkStep
      rw [if_pos h]
    · intro h
      unfold chunkStep
      rw [if_neg h]
  · intro text minC st
    refine ⟨fun hcur hmin => ?_, fun hcur hmin hch => ?_, fun hcur hmin hch => ?_⟩
    · simp only [chunkFinalize]
      rw [if_pos (show st.current ≠ [] ∧ minC ≤ st.curlen from ⟨hcur, hmin⟩),
        if_neg (by simp)]
    · simp only [chunkFinalize]
      rw [if_neg (show ¬(st.current ≠ [] ∧ minC ≤ st.curlen) from
            fun hc => absurd hc.2 (by omega)),
        if_pos (show st.current ≠ [] ∧ st.chunks ≠ [] from ⟨hcur, hch⟩),
        if_neg (by simp)]
    · simp only [chunkFinalize]
      rw [if_neg (show ¬(st.current ≠ [] ∧ minC ≤ st.curlen) from
            fun hc => absurd hc.2 (by omega)),
        if_neg (show ¬(st.current ≠ [] ∧ st.chunks ≠ []) from fun hc => hc.2 hch),
        if_pos hch]

/-- Witness for C6: the close condition firing and not firing, and the
three end-of-input cases, each at a concrete state. -/
theorem C6_witness :
    chunkStep 5 1 ⟨[], [['a']], 2⟩ ['x', 'y', 'z', 'w'] =
      ⟨[['a']], [['x', 'y', 'z', 'w']], 4⟩ ∧
    chunkStep 5 1 ⟨[], [['a']], 2⟩ ['x'] = ⟨[], [['a'], ['x']], 4⟩ ∧
    chunkFinalize ['t'] 1 ⟨[['c']], [['a']], 2⟩ = [['c'], ['a']] ∧
    chunkFinalize ['t'] 1 ⟨[['c']], [['a']], 0⟩ = [['c', ' ', 'a']] ∧
    chunkFinalize ['t'] 1 ⟨[], [['a']], 0⟩ = [['t']] := by
  refine ⟨(C6_chunking.2.1 5 1 ⟨[], [['a']], 2⟩ ['x', 'y', 'z', 'w']).1 (by decide),
    (C6_chunking.2.1 5 1 ⟨[], [['a']], 2⟩ ['x']).2 (by decide),
    (C6_chunking.2.2 ['t'] 1 ⟨[['c']], [['a']], 2⟩).1 (by decide) (by decide),
    (C6_chunking.2.2 ['t'] 1 ⟨[['c']], [['a']], 0⟩).2.1 (by decide) (by decide) (by decide),
    (C6_chunking.2.2 ['t'] 1 ⟨[], [['a']], 0⟩).2.2 (by decide) (by decide) (by decide)⟩

/-! ## C4: what the four boundary patterns match -/

/-- Inverse of `reSplit`: re-join pieces with a newline at each boundary. -/
def joinNl : List (List Char) → List Char
  | [] => []
  | [x] => x
  | x :: y :: xs => x ++ nlC :: joinNl (y :: xs)

theorem splitGo_ne_nil (p : List Char → Bool) :
    ∀ (l acc : List Char), splitGo p l acc ≠ [] := by
  intro l
  induction l with
  | nil => intro acc; simp [splitGo]
  | cons c cs ih =>
    intro acc
    unfold splitGo
    split
    · simp
    · exact ih _

theorem joinNl_splitGo (p : List Char → Bool) :
    ∀ (l acc : List Char), joinNl (splitGo p l acc) = acc.reverse ++ l := by
  intro l
  induction l with
  | nil => intro acc; simp [splitGo, joinNl]
  | cons c cs ih =>
    intro acc
    unfold splitGo
    split
    · next h =>
      have hc : c = nlC := by
        rw [Bool.and_eq_true] at h
        exact beq_iff_eq.mp h.1
      cases hrest : splitGo p cs [] with
      | nil => exact absurd hrest (splitGo_ne_nil p cs [])
      | cons y ys =>
        show acc.reverse ++ nlC :: joinNl (y :: ys) = acc.reverse ++ c :: cs
        rw [← hrest, ih []]
        simp [hc]
    · next h =>
      rw [ih (c :: acc)]
      simp

/-- Every boundary that `reSplit` cuts satisfied the lookahead on the
remaining text: if the split has a second piece, the lookahead holds on the
re-joined remainder. -/
theorem splitGo_boundary (p : List Char → Bool) :
    ∀ (l acc x : List Char) (rest : List (List Char)),
      splitGo p l acc = x :: rest → rest ≠ [] → p (joinNl rest) = true := by
  intro l
  induction l with
  | nil =>
    intro acc x rest h hne
    unfold splitGo at h
    injection h with h1 h2
    exact absurd h2.symm hne
  | cons c cs ih =>
    intro acc x rest h hne
    unfold splitGo at h
    split at h
    · next hcond =>
      injection h with h1 h2
      rw [← h2, joinNl_splitGo p cs []]
      rw [Bool.and_eq_true] at hcond
      simpa using hcond.2
    · next hcond => exact ih _ x rest h hne

theorem drop_takeWhile_length (p : Char → Bool) (l : List Char) :
    l.drop (l.takeWhile p).length = l.dropWhile p := by
  induction l with
  | nil => rfl
  | cons a t ih =>
    by_cases hpa : p a
    · rw [List.takeWhile_cons_of_pos hpa, List.dropWhile_cons_of_pos hpa,
        List.length_cons, List.drop_succ_cons]
      exact ih
    · rw [List.takeWhile_cons_of_neg hpa, List.dropWhile_cons_of_neg hpa]
      rfl

/-- Pattern (a)'s lookahead `[A-Z][A-Z\s&\x27-]{5,80}\n` holds exactly when
the suffix starts with an uppercase ASCII letter followed, for some `k`
with `5 ≤ k ≤ 80`, by `k` characters of the heading class and then a
newline (so the heading line has 6 to 81 characters). -/
theorem lookStandalone_iff (rest : List Char) :
    lookStandalone rest = true ↔
      ∃ (c : Char) (cs : List Char), rest = c :: cs ∧ 65 ≤ c.toNat ∧ c.toNat ≤ 90 ∧
        ∃ k, 5 ≤ k ∧ k ≤ 80 ∧ (∀ x ∈ cs.take k, classA x = true) ∧
          cs.get? k = some nlC := by
  cases rest with
  | nil => simp [lookStandalone]
  | cons c cs =>
    unfold lookStandalone
    rw [Bool.and_eq_true, List.any_eq_true]
    constructor
    · rintro ⟨hup, j, hj, hcond⟩
      rw [List.mem_range] at hj
      rw [Bool.and_eq_true] at hcond
      have hup' := of_decide_eq_true hup
      refine ⟨c, cs, rfl, hup'.1, hup'.2, 5 + j, by omega, by omega, ?_, ?_⟩
      · exact fun x hx => List.all_eq_true.mp hcond.1 x hx
      · exact beq_iff_eq.mp hcond.2
    · rintro ⟨c', cs', heq, h65, h90, k, hk5, hk80, hall, hget⟩
      injection heq with e1 e2
      subst e1
      subst e2
      refine ⟨decide_eq_true ⟨h65, h90⟩, k - 5, List.mem_range.mpr (by omega), ?_⟩
      have hk : 5 + (k - 5) = k := by omega
      rw [hk, Bool.and_eq_true]
      exact ⟨List.all_eq_true.mpr hall, beq_iff_eq.mpr hget⟩

/-- Pattern (b)'s lookahead `\d+\.\s` holds exactly when the suffix is a
non-empty digit run, then a period, then a whitespace character. -/
theorem lookNumbered_iff (rest : List Char) :
    lookNumbered rest = true ↔
      ∃ (ds tl : List Char) (c1 c2 : Char),
        rest = ds ++ c1 :: c2 :: tl ∧ ds ≠ [] ∧ (∀ x ∈ ds, isDigitC x = true) ∧
        c1.toNat = 46 ∧ isPySpace c2 = true := by
  simp only [lookNumbered]
  rw [Bool.and_eq_true]
  constructor
  · rintro ⟨hne, hmatch⟩
    have hds : rest.takeWhile isDigitC ≠ [] := by simpa using hne
    rw [drop_takeWhile_length] at hmatch
    cases hm : rest.dropWhile isDigitC with
    | nil => rw [hm] at hmatch; exact absurd hmatch (by simp)
    | cons c1 rest2 =>
      cases rest2 with
      | nil => rw [hm] at hmatch; exact absurd hmatch (by simp)
      | cons c2 tl =>
        rw [hm, Bool.and_eq_true] at hmatch
        refine ⟨rest.takeWhile isDigitC, tl, c1, c2, ?_, hds, ?_, ?_, hmatch.2⟩
        · have hsplit := List.takeWhile_append_dropWhile isDigitC rest
          rw [hm] at hsplit
          exact hsplit.symm
        · exact fun x hx => List.all_eq_true.mp List.all_takeWhile x hx
        · exact beq_iff_eq.mp hmatch.1
  · rintro ⟨ds, tl, c1, c2, heq, hne, hdig, hc1, hc2⟩
    subst heq
    have hc1d : isDigitC c1 = false := by
      unfold isDigitC
      exact decide_eq_false (by omega)
    constructor
    · rw [List.takeWhile_append_of_pos hdig, List.takeWhile_cons_of_neg (by simp [hc1d])]
      simpa using hne
    · rw [drop_takeWhile_length, List.dropWhile_append_of_pos hdig,
        List.dropWhile_cons_of_neg (by simp [hc1d]), Bool.and_eq_true]
      exact ⟨beq_iff_eq.mpr hc1, hc2⟩

/-- Patterns (c)/(d): the lookahead `<kw>\s+\d` holds exactly when the
suffix is the keyword, a non-empty whitespace run, then a digit. -/
theorem lookKeyword_iff (kw rest : List Char) :
    lookKeyword kw rest = true ↔
      ∃ (ws tl : List Char) (d : Char),
        rest = kw ++ ws ++ d :: tl ∧ ws ≠ [] ∧ (∀ x ∈ ws, isPySpace x = true) ∧
        isDigitC d = true := by
  simp only [lookKeyword]
  rw [Bool.and_eq_true]
  constructor
  · rintro ⟨hpre, hrest⟩
    obtain ⟨t, ht⟩ := List.isPrefixOf_iff_prefix.mp hpre
    have hd : rest.drop kw.length = t := by rw [← ht, List.drop_left]
    rw [hd, Bool.and_eq_true] at hrest
    obtain ⟨hwne, hmatch⟩ := hrest
    rw [drop_takeWhile_length] at hmatch
    cases hm : t.dropWhile isPySpace with
    | nil => rw [hm] at hmatch; exact absurd hmatch (by simp)
    | cons d tl =>
      rw [hm] at hmatch
      refine ⟨t.takeWhile isPySpace, tl, d, ?_, by simpa using hwne,
        fun x hx => List.all_eq_true.mp List.all_takeWhile x hx, by simpa using hmatch⟩
      have hsplit := List.takeWhile_append_dropWhile isPySpace t
      rw [hm] at hsplit
      rw [← ht, List.append_assoc]
      congr 1
      exact hsplit.symm
  · rintro ⟨ws, tl, d, heq, hwne, hws, hdg⟩
    subst heq
    have hdns : isPySpace d = false := by
      unfold isDigitC at hdg
      have := of_decide_eq_true hdg
      unfold isPySpace
      exact decide_eq_false (by omega)
    have hdrop : (kw ++ ws ++ d :: tl).drop kw.length = ws ++ d :: tl := by
      rw [List.append_assoc, List.drop_left]
    constructor
    · rw [List.isPrefixOf_iff_prefix]
      exact ⟨ws ++ d :: tl, by rw [List.append_assoc]⟩
    · rw [hdrop, Bool.and_eq_true]
      constructor
      · rw [List.takeWhile_append_of_pos hws, List.takeWhile_cons_of_neg (by simp [hdns])]
        simpa using hwne
      · rw [drop_takeWhile_length, List.dropWhile_append_of_pos hws,
          List.dropWhile_cons_of_neg (by simp [hdns])]
        simpa using hdg

/-- Line with 81 characters (one uppercase plus 80 class characters),
terminated by a newline: pattern (a) accepts it. -/
def line81 : List Char := 'B' :: List.replicate 80 'C' ++ [nlC]

/-- Counterexample to C4 as stated: the patterns do not require a blank
line — `tx4` contains no blank line (splitting on two consecutive newlines
leaves it whole) yet pattern (b) cuts it into 6 pieces and `segment`
returns those pieces; moreover pattern (a) accepts a heading line of 81
characters, outside the claimed 6–80 range. -/
theorem C4_counterexample :
    splitNlNlGo tx4 [] = [tx4] ∧
    (reSplit lookNumbered tx4).length = 6 ∧
    split_into_sections tx4 = trimFilter (reSplit lookNumbered tx4) ∧
    lookStandalone line81 = true := by
  decide

/-- C4 (amended): each pattern splits at every newline (not necessarily a
blank line) whose suffix satisfies its lookahead, the newline being
consumed: re-joining the pieces with newlines restores the text, and
whenever a cut produced a remainder the lookahead held on it.  The
lookaheads are characterized exactly: (a) an uppercase ASCII letter then
5–80 characters drawn from uppercase/whitespace/ampersand/apostrophe/
hyphen then a newline (a heading line of 6–81 characters); (b) digits then
period then whitespace; (c)/(d) `Article`/`Section`, whitespace, a digit. -/
theorem C4_boundary_patterns :
    (∀ (p : List Char → Bool) (text : List Char), joinNl (reSplit p text) = text) ∧
    (∀ (p : List Char → Bool) (text x : List Char) (rest : List (List Char)),
      reSplit p text = x :: rest → rest ≠ [] → p (joinNl rest) = true) ∧
    (∀ rest : List Char, lookStandalone rest = true ↔
      ∃ (c : Char) (cs : List Char), rest = c :: cs ∧ 65 ≤ c.toNat ∧ c.toNat ≤ 90 ∧
        ∃ k, 5 ≤ k ∧ k ≤ 80 ∧ (∀ x ∈ cs.take k, classA x = true) ∧
          cs.get? k = some nlC) ∧
    (∀ rest : List Char, lookNumbered rest = true ↔
      ∃ (ds tl : List Char) (c1 c2 : Char),
        rest = ds ++ c1 :: c2 :: tl ∧ ds ≠ [] ∧ (∀ x ∈ ds, isDigitC x = true) ∧
        c1.toNat = 46 ∧ isPySpace c2 = true) ∧
    (∀ (kw rest : List Char), lookKeyword kw rest = true ↔
      ∃ (ws tl : List Char) (d : Char),
        rest = kw ++ ws ++ d :: tl ∧ ws ≠ [] ∧ (∀ x ∈ ws, isPySpace x = true) ∧
        isDigitC d = true) := by
  exact ⟨fun p text => by simpa using joinNl_splitGo p text [],
    fun p text x rest h hne => splitGo_boundary p text [] x rest h hne,
    lookStandalone_iff, lookNumbered_iff, lookKeyword_iff⟩

/-- Witness for C4: the characterizations applied at concrete suffixes —
the heading-style lookahead on `line81`, the numbered lookahead on
`1. x`, and the `Section` lookahead on `Section 2`. -/
theorem C4_witness :
    lookStandalone line81 = true ∧
    lookNumbered "1. x".toList = true ∧
    lookKeyword "Section".toList "Section 2".toList = true := by
  exact ⟨(C4_boundary_patterns.2.2.1 line81).mpr
      ⟨'B', List.replicate 80 'C' ++ [nlC], rfl, by decide, by decide, 80, by decide,
        by decide, by decide, by decide⟩,
    (C4_boundary_patterns.2.2.2.1 "1. x".toList).mpr
      ⟨['1'], ['x'], '.', ' ', by decide, by decide, by decide, by decide, by decide⟩,
    (C4_boundary_patterns.2.2.2.2 "Section".toList "Section 2".toList).mpr
      ⟨[' '], [], '2', by decide, by decide, by decide, by decide⟩⟩

/-! ## C8: save/load round trip -/

theorem skipWs_cons_ws {c : Char} (h : isJsonWs c = true) (l : List Char) :
    skipWs (c :: l) = skipWs l :=
  List.dropWhile_cons_of_pos h

theorem skipWs_cons_not {c : Char} (h : isJsonWs c = false) (l : List Char) :
    skipWs (c :: l) = c :: l :=
  List.dropWhile_cons_of_neg (by simp [h])

theorem expectC_eq (c : Char) (r : List Char) : expectC c (c :: r) = some r := by
  simp [expectC]

theorem statusOfText_statusText (d : Decision) : statusOfText (statusText d) = some d := by
  cases d <;> rfl

theorem escapeStr_cons (c : Char) (cs : List Char) :
    escapeStr (c :: cs) = escapeChar c ++ escapeStr cs := by
  simp [escapeStr]

theorem fromHexDigit_hexOfNibble : ∀ n, n < 16 → fromHexDigit (hexOfNibble n) = some n := by
  decide

theorem char_eq_of_toNat_eq {c d : Char} (h : c.toNat = d.toNat) : c = d :=
  Char.ext (UInt32.ext h)

/-- Parse step for a short escape sequence. -/
theorem parseStrBody_short (c e : Char) (tail : List Char)
    (hu : (e == 'u') = false) (hun : unescapeShort e = some c)
    (s : List Char × List Char)
    (htail : parseStrBody tail = some s) :
    parseStrBody (bslashC :: e :: tail) = some (c :: s.1, s.2) := by
  have e1 : (bslashC == quoteC) = false := by decide
  have e2 : (bslashC == bslashC) = true := by decide
  unfold parseStrBody
  simp [e1, e2, hu, hun, htail]

/-- Parse step for a `\uXXXX` escape sequence. -/
theorem parseStrBody_unicode (a b c2 d : Char) (va vb vc vd : Nat) (tail : List Char)
    (ha : fromHexDigit a = some va) (hb : fromHexDigit b = some vb)
    (hc : fromHexDigit c2 = some vc) (hd : fromHexDigit d = some vd)
    (s : List Char × List Char)
    (htail : parseStrBody tail = some s) :
    parseStrBody (bslashC :: 'u' :: a :: b :: c2 :: d :: tail) =
      some (Char.ofNat (((va * 16 + vb) * 16 + vc) * 16 + vd) :: s.1, s.2) := by
  have e1 : (bslashC == quoteC) = false := by decide
  have e2 : (bslashC == bslashC) = true := by decide
  have e3 : ('u' == 'u') = true := by decide
  unfold parseStrBody
  simp [e1, e2, e3, ha, hb, hc, hd, htail]

/-- Core string round trip: parsing an escaped string body up to the
closing quote recovers the original string and the rest of the input. -/
theorem parseStrBody_escape (s : List Char) :
    ∀ rest : List Char, parseStrBody (escapeStr s ++ quoteC :: rest) = some (s, rest) := by
  induction s with
  | nil =>
    intro rest
    show parseStrBody (quoteC :: rest) = some ([], rest)
    unfold parseStrBody
    rw [if_pos (by decide)]
  | cons c cs ih =>
    intro rest
    rw [escapeStr_cons, List.append_assoc]
    unfold escapeChar
    by_cases h1 : c == quoteC
    · rw [if_pos h1, beq_iff_eq.mp h1]
      exact parseStrBody_short quoteC quoteC _ (by decide) (by decide) (cs, rest) (ih rest)
    · rw [if_neg h1]
      by_cases h2 : c == bslashC
      · rw [if_pos h2, beq_iff_eq.mp h2]
        exact parseStrBody_short bslashC bslashC _ (by decide) (by decide) (cs, rest) (ih rest)
      · rw [if_neg h2]
        by_cases h3 : c.toNat == 10
        · rw [if_pos h3, char_eq_of_toNat_eq (c := c) (d := nlC)
            (by rw [beq_iff_eq.mp h3]; decide)]
          exact parseStrBody_short nlC 'n' _ (by decide) (by decide) (cs, rest) (ih rest)
        · rw [if_neg h3]
          by_cases h4 : c.toNat == 9
          · rw [if_pos h4, char_eq_of_toNat_eq (c := c) (d := Char.ofNat 9)
              (by rw [beq_iff_eq.mp h4]; decide)]
            exact parseStrBody_short (Char.ofNat 9) 't' _ (by decide) (by decide)
              (cs, rest) (ih rest)
          · rw [if_neg h4]
            by_cases h5 : c.toNat == 13
            · rw [if_pos h5, char_eq_of_toNat_eq (c := c) (d := Char.ofNat 13)
                (by rw [beq_iff_eq.mp h5]; decide)]
              exact parseStrBody_short (Char.ofNat 13) 'r' _ (by decide) (by decide)
                (cs, rest) (ih rest)
            · rw [if_neg h5]
              by_cases h6 : c.toNat == 8
              · rw [if_pos h6, char_eq_of_toNat_eq (c := c) (d := Char.ofNat 8)
                  (by rw [beq_iff_eq.mp h6]; decide)]
                exact parseStrBody_short (Char.ofNat 8) 'b' _ (by decide) (by decide)
                  (cs, rest) (ih rest)
              · rw [if_neg h6]
                by_cases h7 : c.toNat == 12
                · rw [if_pos h7, char_eq_of_toNat_eq (c := c) (d := Char.ofNat 12)
                    (by rw [beq_iff_eq.mp h7]; decide)]
                  exact parseStrBody_short (Char.ofNat 12) 'f' _ (by decide) (by decide)
                    (cs, rest) (ih rest)
                · rw [if_neg h7]
                  by_cases h8 : c.toNat < 32
                  · rw [if_pos h8]
                    have hv := parseStrBody_unicode '0' '0'
                      (hexOfNibble (c.toNat / 16)) (hexOfNibble (c.toNat % 16))
                      0 0 (c.toNat / 16) (c.toNat % 16)
                      (escapeStr cs ++ quoteC :: rest)
                      (by decide) (by decide)
                      (fromHexDigit_hexOfNibble _ (by omega))
                      (fromHexDigit_hexOfNibble _ (by omega))
                      (cs, rest) (ih rest)
                    have hn : ((0 * 16 + 0) * 16 + c.toNat / 16) * 16 + c.toNat % 16
                        = c.toNat := by omega
                    rw [hn, Char.ofNat_toNat] at hv
                    exact hv
                  · rw [if_neg h8]
                    show parseStrBody (c :: (escapeStr cs ++ quoteC :: rest)) =
                      some (c :: cs, rest)
                    unfold parseStrBody
                    rw [if_neg h1, if_neg h2, ih rest]

theorem skipWs_colon (l : List Char) : skipWs (colonC :: l) = colonC :: l :=
  skipWs_cons_not (by decide) l

theorem skipWs_space (l : List Char) : skipWs (' ' :: l) = skipWs l :=
  skipWs_cons_ws (by decide) l

theorem skipWs_nl (l : List Char) : skipWs (nlC :: l) = skipWs l :=
  skipWs_cons_ws (by decide) l

theorem skipWs_comma (l : List Char) : skipWs (commaC :: l) = commaC :: l :=
  skipWs_cons_not (by decide) l

theorem skipWs_rbrace (l : List Char) : skipWs (rbraceC :: l) = rbraceC :: l :=
  skipWs_cons_not (by decide) l

theorem skipWs_lbrace (l : List Char) : skipWs (lbraceC :: l) = lbraceC :: l :=
  skipWs_cons_not (by decide) l

theorem quoted_cons (s rest : List Char) :
    quoted s ++ rest = quoteC :: (escapeStr s ++ quoteC :: rest) := by
  simp [quoted]

theorem skipWs_quoted (s rest : List Char) :
    skipWs (quoted s ++ rest) = quoted s ++ rest := by
  rw [quoted_cons, skipWs_cons_not (by decide)]

theorem parseQuotedStr_quoted (s rest : List Char) :
    parseQuotedStr (quoted s ++ rest) = some (s, rest) := by
  rw [quoted_cons]
  unfold parseQuotedStr
  rw [expectC_eq]
  exact parseStrBody_escape s rest

theorem parseKeyVal_nl (key l : List Char) :
    parseKeyVal key (nlC :: l) = parseKeyVal key l := by
  unfold parseKeyVal
  rw [skipWs_nl]

theorem parseKeyVal_space (key l : List Char) :
    parseKeyVal key (' ' :: l) = parseKeyVal key l := by
  unfold parseKeyVal
  rw [skipWs_space]

theorem parseKeyVal_text (key v rest : List Char) :
    parseKeyVal key (quoted key ++ colonC :: ' ' :: (quoted v ++ rest)) = some (v, rest) := by
  simp only [parseKeyVal, skipWs_quoted, parseQuotedStr_quoted, beq_self_eq_true, if_true,
    skipWs_colon, expectC_eq, skipWs_space]

theorem recordText_cons (r : RevRecord) (rest : List Char) :
    recordText r ++ rest = lbraceC :: nlC :: ' ' :: ' ' :: ' ' :: ' ' ::
      (quoted "status".toList ++ colonC :: ' ' :: (quoted (statusText r.status) ++
       commaC :: nlC :: ' ' :: ' ' :: ' ' :: ' ' ::
       (quoted "preview".toList ++ colonC :: ' ' :: (quoted r.preview ++
        nlC :: ' ' :: ' ' :: rbraceC :: rest)))) := by
  simp [recordText]

theorem parseRecordObj_text (r : RevRecord) (rest : List Char) :
    parseRecordObj (' ' :: (recordText r ++ rest)) = some (r, rest) := by
  simp only [parseRecordObj, skipWs_space, recordText_cons, skipWs_lbrace, expectC_eq,
    parseKeyVal_nl, parseKeyVal_space, parseKeyVal_text, statusOfText_statusText,
    skipWs_comma, skipWs_nl, skipWs_rbrace]

theorem entryTail_split (e : List Char × RevRecord) (rest : List Char) :
    entryTail e ++ rest = quoted e.1 ++ colonC :: ' ' :: (recordText e.2 ++ rest) := by
  simp [entryTail]

theorem entryTail_cons (e : List Char × RevRecord) (rest : List Char) :
    entryTail e ++ rest =
      quoteC :: (escapeStr e.1 ++ quoteC :: (colonC :: ' ' :: (recordText e.2 ++ rest))) := by
  rw [entryTail_split, quoted_cons]

theorem parseEntry_text (e : List Char × RevRecord) (rest : List Char) :
    parseEntry (entryTail e ++ rest) = some (e, rest) := by
  rw [entryTail_split]
  simp only [parseEntry, parseQuotedStr_quoted, skipWs_colon, expectC_eq,
    parseRecordObj_text]

/-- The tail of the serialized ledger from the first entry on: entries
separated by `,` newline and the two-space indent, closed by newline and
the closing brace. -/
def joinTail : Ledger → List Char
  | [] => []
  | [e] => entryTail e ++ [nlC, rbraceC]
  | e :: e2 :: L2 => entryTail e ++ commaC :: nlC :: ' ' :: ' ' :: joinTail (e2 :: L2)

theorem skipWs_joinTail (e : List Char × RevRecord) (L : Ledger) :
    skipWs (joinTail (e :: L)) = joinTail (e :: L) := by
  cases L with
  | nil =>
    show skipWs (entryTail e ++ [nlC, rbraceC]) = entryTail e ++ [nlC, rbraceC]
    rw [entryTail_cons, skipWs_cons_not (by decide)]
  | cons e2 L2 =>
    show skipWs (entryTail e ++ commaC :: nlC :: ' ' :: ' ' :: joinTail (e2 :: L2)) =
      entryTail e ++ commaC :: nlC :: ' ' :: ' ' :: joinTail (e2 :: L2)
    rw [entryTail_cons, skipWs_cons_not (by decide)]

theorem parseEntries_joinTail :
    ∀ (L : Ledger) (fuel : Nat), L ≠ [] → L.length ≤ fuel →
      parseEntries fuel (joinTail L) = some (L, []) := by
  intro L
  induction L with
  | nil => intro fuel h _; exact absurd rfl h
  | cons e L' ih =>
    intro fuel hne hfuel
    cases fuel with
    | zero => simp at hfuel
    | succ f =>
      cases L' with
      | nil =>
        show parseEntries (f + 1) (entryTail e ++ [nlC, rbraceC]) = some ([e], [])
        unfold parseEntries
        rw [parseEntry_text e [nlC, rbraceC]]
        have hb1 : (rbraceC == commaC) = false := by decide
        have hb2 : (rbraceC == rbraceC) = true := by decide
        simp [skipWs_nl, skipWs_rbrace, hb1, hb2]
      | cons e2 L2 =>
        show parseEntries (f + 1)
          (entryTail e ++ commaC :: nlC :: ' ' :: ' ' :: joinTail (e2 :: L2)) =
          some (e :: e2 :: L2, [])
        unfold parseEntries
        rw [parseEntry_text e (commaC :: nlC :: ' ' :: ' ' :: joinTail (e2 :: L2))]
        have hb1 : (commaC == commaC) = true := by decide
        rw [List.length_cons] at hfuel
        have hrec := ih f (by simp) (by simp at hfuel ⊢; omega)
        simp [hb1, skipWs_comma, skipWs_nl, skipWs_space, skipWs_joinTail, hrec]

theorem joinComma_map : ∀ L : Ledger, L ≠ [] →
    joinComma (L.map entryText) ++ [nlC, rbraceC] = ' ' :: ' ' :: joinTail L := by
  intro L
  induction L with
  | nil => intro h; exact absurd rfl h
  | cons e L' ih =>
    intro _
    cases L' with
    | nil =>
      show joinComma [entryText e] ++ [nlC, rbraceC] =
        ' ' :: ' ' :: (entryTail e ++ [nlC, rbraceC])
      simp [joinComma, entryText]
    | cons e2 L2 =>
      have hrec := ih (by simp)
      simp only [List.map_cons] at hrec
      show (entryText e ++ [commaC, nlC] ++
          joinComma (entryText e2 :: L2.map entryText)) ++ [nlC, rbraceC] =
        ' ' :: ' ' :: (entryTail e ++ commaC :: nlC :: ' ' :: ' ' :: joinTail (e2 :: L2))
      rw [← hrec]
      simp [entryText, List.append_assoc]

theorem length_le_joinTail : ∀ L : Ledger, L ≠ [] → L.length ≤ (joinTail L).length := by
  intro L
  induction L with
  | nil => intro h; exact absurd rfl h
  | cons e L' ih =>
    intro _
    cases L' with
    | nil =>
      show 1 ≤ (entryTail e ++ [nlC, rbraceC]).length
      simp
    | cons e2 L2 =>
      show (e :: e2 :: L2).length ≤
        (entryTail e ++ commaC :: nlC :: ' ' :: ' ' :: joinTail (e2 :: L2)).length
      have := ih (by simp)
      simp at this ⊢
      omega

theorem skipWs_nil : skipWs [] = [] := rfl

theorem save_nonempty (L : Ledger) (hne : L ≠ []) :
    save_database L = lbraceC :: nlC :: ' ' :: ' ' :: joinTail L := by
  unfold save_database
  rw [if_neg (by simpa using hne), List.cons_append, List.cons_append, joinComma_map L hne]

/-- C8: persisting a ledger with `save_database` (the exact text
`json.dump(..., indent=2, ensure_ascii=False)` writes) and loading it back
with `load_database` (`json.load` on the ledger document shape) reproduces
the identical mapping: the entry list itself, hence also the mapping with
key order irrelevant. -/
theorem C8_save_load_round_trip (L : Ledger) (hkeys : (L.map Prod.fst).Nodup) :
    load_database (save_database L) = some L := by
  cases L with
  | nil => decide
  | cons e L' =>
    rw [save_nonempty (e :: L') (by simp)]
    obtain ⟨X, hX⟩ : ∃ X, joinTail (e :: L') = quoteC :: X := by
      cases L' with
      | nil => exact ⟨_, entryTail_cons e [nlC, rbraceC]⟩
      | cons e2 L2 => exact ⟨_, entryTail_cons e _⟩
    have hfuel : (e :: L').length ≤
        (lbraceC :: nlC :: ' ' :: ' ' :: joinTail (e :: L')).length + 1 := by
      have h1 := length_le_joinTail (e :: L') (by simp)
      simp only [List.length_cons] at h1 ⊢
      omega
    have hpe := parseEntries_joinTail (e :: L')
      ((lbraceC :: nlC :: ' ' :: ' ' :: joinTail (e :: L')).length + 1) (by simp) hfuel
    rw [hX] at hpe
    have hq : ∀ l : List Char, skipWs (quoteC :: l) = quoteC :: l :=
      fun l => skipWs_cons_not (by decide) l
    have hb1 : (lbraceC == lbraceC) = true := by decide
    have hb2 : (quoteC == rbraceC) = false := by decide
    unfold load_database
    simp only [List.length_cons] at hpe
    simp [skipWs_lbrace, hb1, skipWs_nl, skipWs_space, hX, hq, hb2, hpe, skipWs_nil]

/-- Witness for C8: round trip of a concrete two-entry ledger whose
previews exercise escaping (newline, a control character, quote,
backslash). -/
theorem C8_witness :
    load_database (save_database
      [("aa".toList, ⟨Decision.approved, "p\n1".toList⟩),
       ("bb".toList, ⟨Decision.disapproved, Char.ofNat 7 :: quoteC :: bslashC :: []⟩)]) =
    some [("aa".toList, ⟨Decision.approved, "p\n1".toList⟩),
          ("bb".toList, ⟨Decision.disapproved, Char.ofNat 7 :: quoteC :: bslashC :: []⟩)] :=
  C8_save_load_round_trip
    [("aa".toList, ⟨Decision.approved, "p\n1".toList⟩),
     ("bb".toList, ⟨Decision.disapproved, Char.ofNat 7 :: quoteC :: bslashC :: []⟩)]
    (by decide)

end TandC
